import Mathlib

/-!
# Verification of the reactive-flux (TPT) core of scikit-time

Shallow embedding of `sktime/markovprocess/reactive_flux.py`:
the `ReactiveFlux` model, its coarse-set partitioner
`_compute_coarse_sets`, the coarse-graining assembly `coarse_grain`,
the path-flux reconstruction `_pathways_to_flux` / `major_flux`,
and the scalar accessors (`rate`, `mfpt`, ...).

Python sets of small naturals are embedded as `Finset ℕ`, numeric
scalars and matrix entries as `ℚ`, NumPy vectors as functions `ℕ → ℚ`,
matrices as a dimension together with an entry function, and optional
(possibly `None`) data as `Option`.
-/

namespace SkTime

/-! ## The coarse-set partitioner `_compute_coarse_sets`

The method only reads `self.A`, `self.B` and `self.n_states` (through
`self.I`), so it is embedded as a function of those three values. -/

/-- Embeds the property `ReactiveFlux.I`:
`list(set(range(self.n_states)) - set(self._A) - set(self._B))`. -/
def setIof (n : ℕ) (setA setB : Finset ℕ) : Finset ℕ :=
  (Finset.range n \ setA) \ setB

/-- Union of a list of sets; embeds the accumulation
`set_all_user = []; for user_set in raw_sets: set_all_user += user_set`
followed by `set(set_all_user)`. -/
def unionAll (l : List (Finset ℕ)) : Finset ℕ :=
  l.foldr (· ∪ ·) ∅

/-- Embeds the "anything missing?" phase of `_compute_coarse_sets`:
the states of `range(n_states)` not covered by any user set are added
as one extra set at the end of the raw list (only when non-empty). -/
def computeRawSets (n : ℕ) (userSets : List (Finset ℕ)) : List (Finset ℕ) :=
  let set_rest := Finset.range n \ unionAll userSets
  if 0 < set_rest.card then userSets ++ [set_rest] else userSets

/-- Embeds the body of the splitting loop for one raw set and one of the
three regions: `s = raw_set.intersection(region); if len(s) > 0: append(s)`. -/
def splitSet (region raw_set : Finset ℕ) : List (Finset ℕ) :=
  if 0 < (raw_set ∩ region).card then [raw_set ∩ region] else []

/-- Embeds the splitting loop of `_compute_coarse_sets` restricted to one
region: the non-empty intersections of the raw sets with the region, in
processing order. -/
def splitSets (region : Finset ℕ) (rawSets : List (Finset ℕ)) : List (Finset ℕ) :=
  rawSets.flatMap (splitSet region)

/-- Embeds Python `list(range(a, b))`. -/
def pyRange (a b : ℕ) : List ℕ :=
  List.range' a (b - a)

/-- Embeds `ReactiveFlux._compute_coarse_sets(user_sets)`, as a function of
`self.n_states`, `set(self.A)` and `set(self.B)`.  Returns
`(tpt_sets, Aindexes, Bindexes)`. -/
def _compute_coarse_sets (n : ℕ) (setA setB : Finset ℕ)
    (userSets : List (Finset ℕ)) : List (Finset ℕ) × List ℕ × List ℕ :=
  let setI := setIof n setA setB
  let rawSets := computeRawSets n userSets
  let Asets := splitSets setA rawSets
  let Isets := splitSets setI rawSets
  let Bsets := splitSets setB rawSets
  let tpt_sets := Asets ++ Isets ++ Bsets
  (tpt_sets, pyRange 0 Asets.length,
    pyRange (Asets.length + Isets.length) tpt_sets.length)

/-! ## Matrices, vectors and the `ReactiveFlux` model state

A NumPy matrix is embedded as its dimension (`shape[0]`, the matrices
here are square) together with an entry function; a vector as a plain
function `ℕ → ℚ`.  Fields that the constructor accepts as `None` are
`Option`-valued.  `physical_time` is the scalar magnitude of the lag
time quantity. -/

structure Mat where
  dim : ℕ
  entry : ℕ → ℕ → ℚ

/-- The stored state of a `ReactiveFlux` object, one field per attribute
set in `__init__` / the `physical_time` setter. -/
structure ReactiveFlux where
  _A : List ℕ
  _B : List ℕ
  _flux : Mat
  _mu : Option (ℕ → ℚ)
  _qminus : Option (ℕ → ℚ)
  _qplus : Option (ℕ → ℚ)
  _gross_flux : Option Mat
  _dt_model : ℚ
  _totalflux : ℚ
  _kAB : ℚ

namespace ReactiveFlux

/-- `n_states` property: `self._flux.shape[0]`. -/
def n_states (m : ReactiveFlux) : ℕ := m._flux.dim

/-- `A` property getter. -/
def A (m : ReactiveFlux) : List ℕ := m._A

/-- `A` property setter: `self._A = val`. -/
def setA (m : ReactiveFlux) (val : List ℕ) : ReactiveFlux := { m with _A := val }

/-- `B` property getter. -/
def B (m : ReactiveFlux) : List ℕ := m._B

/-- `B` property setter: `self._B = val`. -/
def setB (m : ReactiveFlux) (val : List ℕ) : ReactiveFlux := { m with _B := val }

/-- `stationary_distribution` property getter: returns `self._mu`. -/
def stationary_distribution (m : ReactiveFlux) : Option (ℕ → ℚ) := m._mu

/-- `stationary_distribution` property setter: `self._mu = val`. -/
def set_stationary_distribution (m : ReactiveFlux) (val : Option (ℕ → ℚ)) :
    ReactiveFlux := { m with _mu := val }

/-- `physical_time` property setter (the `Q_` wrapping is the identity on
the embedded scalar magnitude). -/
def set_physical_time (m : ReactiveFlux) (val : ℚ) : ReactiveFlux :=
  { m with _dt_model := val }

/-- `forward_committor` property getter: returns `self._qplus`. -/
def forward_committor (m : ReactiveFlux) : Option (ℕ → ℚ) := m._qplus

/-- `backward_committor` property getter: returns `self._qminus`. -/
def backward_committor (m : ReactiveFlux) : Option (ℕ → ℚ) := m._qminus

/-- `net_flux` property: `self._flux / self._dt_model`, entrywise. -/
def net_flux (m : ReactiveFlux) : Mat :=
  ⟨m._flux.dim, fun i j => m._flux.entry i j / m._dt_model⟩

/-- `gross_flux` property: `self._gross_flux / self._dt_model`.  When
`self._gross_flux` is `None` the Python division raises; this is embedded
as `none`. -/
def gross_flux (m : ReactiveFlux) : Option Mat :=
  m._gross_flux.map (fun gf => ⟨gf.dim, fun i j => gf.entry i j / m._dt_model⟩)

/-- `total_flux` property: `self._totalflux / self._dt_model`. -/
def total_flux (m : ReactiveFlux) : ℚ := m._totalflux / m._dt_model

/-- `rate` property: `self._kAB / self._dt_model`. -/
def rate (m : ReactiveFlux) : ℚ := m._kAB / m._dt_model

/-- `mfpt` property: `self._dt_model / self._kAB`. -/
def mfpt (m : ReactiveFlux) : ℚ := m._dt_model / m._kAB

end ReactiveFlux

/-! ## External flux-library primitives

`total_flux`, `rate`, `coarsegrain` and `to_netflux` are imported from
`msmtools.flux`, whose code is not part of this repository; they are
modelled from the spec's contract for them. -/

/-- Modelled from the spec: the external primitive
`total_flux(flux_matrix, A) -> scalar` of the flux analysis library
(missing from src): the aggregate outflow from `A` to the rest,
`sum of net_flux[a, j] for a in A, j not in A`. -/
def total_flux_prim (F : Mat) (setA : Finset ℕ) : ℚ :=
  (setA.filter (· < F.dim)).sum fun a =>
    ((Finset.range F.dim) \ setA).sum fun j => F.entry a j

/-- Modelled from the spec: the external primitive
`rate(total_flux, mu, qminus) -> scalar` of the flux analysis library
(missing from src): `total_flux` divided by the stationary flux through
`A`, a function of `total_flux`, `mu` and `qminus`. -/
def rate_prim (totF : ℚ) (mu qminus : ℕ → ℚ) (n : ℕ) : ℚ :=
  totF / ((Finset.range n).sum fun i => mu i * qminus i)

/-- Modelled from the spec: behaviour of the external `rate` primitive on
present (`some`) data; when `mu` or `qminus` is absent the source's scope
does not determine a value and `0` stands in (no claim depends on it). -/
def rate_prim_opt (totF : ℚ) (mu qminus : Option (ℕ → ℚ)) (n : ℕ) : ℚ :=
  match mu, qminus with
  | some muF, some qmF => rate_prim totF muF qmF n
  | _, _ => 0

/-- Modelled from the spec: the external primitive
`coarsegrain(gross_flux_matrix, list_of_state_groups) -> coarse_flux_matrix`
(missing from src): sums flux between all state pairs crossing group
boundaries; flux within a group is discarded. -/
def coarsegrain_prim (F : Mat) (sets : List (Finset ℕ)) : Mat :=
  ⟨sets.length, fun i j =>
    if i = j then 0
    else (sets.getD i ∅).sum fun x => (sets.getD j ∅).sum fun y => F.entry x y⟩

/-- Modelled from the spec: the external primitive
`to_netflux(gross_flux_matrix) -> net_flux_matrix` (missing from src):
removes the cancelling back-fluxes, keeping the non-negative effective
flow of each ordered pair. -/
def to_netflux_prim (F : Mat) : Mat :=
  ⟨F.dim, fun i j => max 0 (F.entry i j - F.entry j i)⟩

/-- Embeds `ReactiveFlux.__init__`: stores the data and derives
`_totalflux` and `_kAB` through the external primitives. -/
def mkReactiveFlux (A B : List ℕ) (flux : Mat)
    (mu qminus qplus : Option (ℕ → ℚ)) (gross_flux : Option Mat)
    (physical_time : ℚ) : ReactiveFlux :=
  let totF := total_flux_prim flux A.toFinset
  { _A := A, _B := B, _flux := flux, _mu := mu, _qminus := qminus,
    _qplus := qplus, _gross_flux := gross_flux, _dt_model := physical_time,
    _totalflux := totF, _kAB := rate_prim_opt totF mu qminus flux.dim }

/-! ## Coarse-graining assembly `coarse_grain` -/

/-- Embeds `pstat_coarse[i] = np.sum(muI)` for one group `Idx`. -/
def groupStat (mu : ℕ → ℚ) (Idx : Finset ℕ) : ℚ :=
  Idx.sum fun x => mu x

/-- Embeds one committor-aggregation step of the `coarse_grain` loop:
`np.dot(muI / pstat_coarse[i], q[I])`. -/
def groupCommittor (mu q : ℕ → ℚ) (Idx : Finset ℕ) : ℚ :=
  Idx.sum fun x => mu x / groupStat mu Idx * q x

/-- Embeds `ReactiveFlux.coarse_grain(user_sets)`.  The Python body
dereferences `self._gross_flux`, `self._mu`, `self._qplus` and
`self._qminus`; a `None` in any of them raises, embedded as `none`. -/
def ReactiveFlux.coarse_grain (m : ReactiveFlux) (userSets : List (Finset ℕ)) :
    Option (List (Finset ℕ) × ReactiveFlux) := do
  let r := _compute_coarse_sets m.n_states m._A.toFinset m._B.toFinset userSets
  let tpt_sets := r.1
  let gf ← m._gross_flux
  let F_coarse := coarsegrain_prim gf tpt_sets
  let Fnet_coarse := to_netflux_prim F_coarse
  let mu ← m._mu
  let qplus ← m._qplus
  let qminus ← m._qminus
  let pstat_coarse : ℕ → ℚ := fun i => groupStat mu (tpt_sets.getD i ∅)
  let forward_committor_coarse : ℕ → ℚ :=
    fun i => groupCommittor mu qplus (tpt_sets.getD i ∅)
  let backward_committor_coarse : ℕ → ℚ :=
    fun i => groupCommittor mu qminus (tpt_sets.getD i ∅)
  some (tpt_sets,
    mkReactiveFlux r.2.1 r.2.2 Fnet_coarse (some pstat_coarse)
      (some backward_committor_coarse) (some forward_committor_coarse)
      (some F_coarse) m._dt_model)

/-! ## Pathway flux reconstruction `_pathways_to_flux` / `major_flux` -/

/-- One `F[p[t], p[t+1]] += pathfluxes[i]` update on the matrix entries. -/
def bump (F : ℕ → ℕ → ℚ) (a b : ℕ) (f : ℚ) : ℕ → ℕ → ℚ :=
  fun i j => if i = a ∧ j = b then F i j + f else F i j

/-- Embeds the inner loop `for t in range(len(p) - 1)` of
`_pathways_to_flux` for one path `p` with flux `f`. -/
def addPath (f : ℚ) : List ℕ → (ℕ → ℕ → ℚ) → ℕ → ℕ → ℚ
  | a :: b :: rest, F => addPath f (b :: rest) (bump F a b f)
  | _, F => F

/-- Embeds `ReactiveFlux._pathways_to_flux(paths, pathfluxes, n)` with `n`
given (as `major_flux` does): starts from the `n × n` zero matrix and adds
each path's flux along its consecutive edges. -/
def _pathways_to_flux (paths : List (List ℕ)) (pathfluxes : List ℚ)
    (n : ℕ) : Mat :=
  ⟨n, (paths.zip pathfluxes).foldl (fun F pf => addPath pf.2 pf.1 F)
    (fun _ _ => 0)⟩

/-- Embeds `ReactiveFlux.major_flux(fraction)` as a function of the pair
`(paths, pathfluxes)` returned by the external `pathways` decomposition
primitive (missing from src): it reduces that pair back to a matrix via
`_pathways_to_flux` with `n = self.n_states`. -/
def ReactiveFlux.major_flux (m : ReactiveFlux) (paths : List (List ℕ))
    (pathfluxes : List ℚ) : Mat :=
  _pathways_to_flux paths pathfluxes m.n_states

/-! ## Lemmas about the partitioner -/

lemma mem_splitSet {R s g : Finset ℕ} :
    g ∈ splitSet R s ↔ 0 < (s ∩ R).card ∧ g = s ∩ R := by
  unfold splitSet
  split <;> simp_all

lemma splitSets_cons (R s : Finset ℕ) (raw : List (Finset ℕ)) :
    splitSets R (s :: raw) = splitSet R s ++ splitSets R raw := by
  simp [splitSets]

lemma mem_splitSets {R : Finset ℕ} {raw : List (Finset ℕ)} {g : Finset ℕ} :
    g ∈ splitSets R raw ↔ ∃ s ∈ raw, 0 < (s ∩ R).card ∧ g = s ∩ R := by
  simp [splitSets, List.mem_flatMap, mem_splitSet]

lemma setIof_inter_left (n : ℕ) (A B : Finset ℕ) : setIof n A B ∩ A = ∅ := by
  ext x; simp [setIof]; tauto

lemma setIof_inter_right (n : ℕ) (A B : Finset ℕ) : setIof n A B ∩ B = ∅ := by
  ext x; simp [setIof]

lemma setIof_subset_range (n : ℕ) (A B : Finset ℕ) :
    setIof n A B ⊆ Finset.range n := by
  intro x hx
  simp only [setIof, Finset.mem_sdiff] at hx
  exact hx.1.1

lemma not_subset_of_inter_empty {g R S : Finset ℕ} (hg : g.Nonempty)
    (hR : g ⊆ R) (hRS : R ∩ S = ∅) : ¬ g ⊆ S := by
  intro hS
  obtain ⟨x, hx⟩ := hg
  have hmem : x ∈ R ∩ S := Finset.mem_inter.2 ⟨hR hx, hS hx⟩
  simp [hRS] at hmem

/-- C1: for every model whose `A` and `B` are disjoint subsets of
`{0..n_states-1}`, and every list of user sets with members in that range,
every group in the `tpt_sets` list returned by
`_compute_coarse_sets(user_sets)` is a non-empty subset of exactly one of
`A`, `I`, `B`. -/
theorem coarse_sets_boundary (n : ℕ) (A B : Finset ℕ)
    (userSets : List (Finset ℕ))
    (hA : A ⊆ Finset.range n) (hB : B ⊆ Finset.range n)
    (hAB : A ∩ B = ∅)
    (hus : ∀ s ∈ userSets, s ⊆ Finset.range n) :
    ∀ g ∈ (_compute_coarse_sets n A B userSets).1,
      g.Nonempty ∧
        ((g ⊆ A ∧ ¬ g ⊆ setIof n A B ∧ ¬ g ⊆ B) ∨
         (¬ g ⊆ A ∧ g ⊆ setIof n A B ∧ ¬ g ⊆ B) ∨
         (¬ g ⊆ A ∧ ¬ g ⊆ setIof n A B ∧ g ⊆ B)) := by
  intro g hg
  have hIA : setIof n A B ∩ A = ∅ := setIof_inter_left n A B
  have hIB : setIof n A B ∩ B = ∅ := setIof_inter_right n A B
  have hAI : A ∩ setIof n A B = ∅ := by rw [Finset.inter_comm]; exact hIA
  have hBI : B ∩ setIof n A B = ∅ := by rw [Finset.inter_comm]; exact hIB
  have hBA : B ∩ A = ∅ := by rw [Finset.inter_comm]; exact hAB
  simp only [_compute_coarse_sets, List.mem_append] at hg
  rcases hg with (hg | hg) | hg
  · obtain ⟨s, _, hpos, rfl⟩ := mem_splitSets.1 hg
    have hne : (s ∩ A).Nonempty := Finset.card_pos.1 hpos
    have hsub : s ∩ A ⊆ A := Finset.inter_subset_right
    exact ⟨hne, Or.inl ⟨hsub,
      not_subset_of_inter_empty hne hsub hAI,
      not_subset_of_inter_empty hne hsub hAB⟩⟩
  · obtain ⟨s, _, hpos, rfl⟩ := mem_splitSets.1 hg
    have hne : (s ∩ setIof n A B).Nonempty := Finset.card_pos.1 hpos
    have hsub : s ∩ setIof n A B ⊆ setIof n A B := Finset.inter_subset_right
    exact ⟨hne, Or.inr (Or.inl ⟨not_subset_of_inter_empty hne hsub hIA, hsub,
      not_subset_of_inter_empty hne hsub hIB⟩)⟩
  · obtain ⟨s, _, hpos, rfl⟩ := mem_splitSets.1 hg
    have hne : (s ∩ B).Nonempty := Finset.card_pos.1 hpos
    have hsub : s ∩ B ⊆ B := Finset.inter_subset_right
    exact ⟨hne, Or.inr (Or.inr ⟨not_subset_of_inter_empty hne hsub hBA,
      not_subset_of_inter_empty hne hsub hBI, hsub⟩)⟩

/-- Witness for C1 at `n = 3`, `A = {0}`, `B = {2}`,
`user_sets = [{0,1}, {2}]`, at the returned group `{1}`. -/
theorem coarse_sets_boundary_witness :
    ({1} : Finset ℕ).Nonempty ∧
      ((({1} : Finset ℕ) ⊆ {0} ∧ ¬ ({1} : Finset ℕ) ⊆ setIof 3 {0} {2} ∧
          ¬ ({1} : Finset ℕ) ⊆ {2}) ∨
       (¬ ({1} : Finset ℕ) ⊆ {0} ∧ ({1} : Finset ℕ) ⊆ setIof 3 {0} {2} ∧
          ¬ ({1} : Finset ℕ) ⊆ {2}) ∨
       (¬ ({1} : Finset ℕ) ⊆ {0} ∧ ¬ ({1} : Finset ℕ) ⊆ setIof 3 {0} {2} ∧
          ({1} : Finset ℕ) ⊆ {2})) :=
  coarse_sets_boundary 3 {0} {2} [{0,1}, {2}]
    (by decide) (by decide) (by decide) (by decide) {1} (by decide)

/-- C8: user sets that share a state produce overlapping groups: with
`A = {0}`, `B = {2}` on 3 states and `user_sets = [{0,1}, {1,2}]`, the
shared state `1` appears in two of the returned groups, which are not
deduplicated. -/
theorem coarse_sets_overlap_hazard :
    (1 ∈ ({0, 1} : Finset ℕ) ∧ 1 ∈ ({1, 2} : Finset ℕ)) ∧
    (_compute_coarse_sets 3 {0} {2} [{0,1}, {1,2}]).1 = [{0}, {1}, {1}, {2}] ∧
    ((_compute_coarse_sets 3 {0} {2} [{0,1}, {1,2}]).1.countP
      (fun g => decide (1 ∈ g))) = 2 := by
  decide

lemma unionAll_cons (s : Finset ℕ) (l : List (Finset ℕ)) :
    unionAll (s :: l) = s ∪ unionAll l := rfl

lemma mem_unionAll {x : ℕ} {l : List (Finset ℕ)} :
    x ∈ unionAll l ↔ ∃ s ∈ l, x ∈ s := by
  induction l with
  | nil => simp [unionAll]
  | cons s l ih => simp [unionAll_cons, Finset.mem_union, ih]

lemma countP_splitSet (x : ℕ) (R s : Finset ℕ) :
    (splitSet R s).countP (fun g => decide (x ∈ g))
      = if x ∈ s ∩ R then 1 else 0 := by
  by_cases hx : x ∈ s ∩ R
  · have hpos : 0 < (s ∩ R).card := Finset.card_pos.2 ⟨x, hx⟩
    simp [splitSet, hpos, hx]
  · simp only [splitSet]
    split <;> simp [hx]

lemma countP_splitSets (x : ℕ) (R : Finset ℕ) (raw : List (Finset ℕ)) :
    (splitSets R raw).countP (fun g => decide (x ∈ g))
      = raw.countP (fun s => decide (x ∈ s ∩ R)) := by
  induction raw with
  | nil => rfl
  | cons s raw ih =>
    rw [splitSets_cons, List.countP_append, ih, List.countP_cons, countP_splitSet]
    by_cases hx : x ∈ s ∩ R <;> simp [hx, Nat.add_comm]

lemma countP_of_pairwise_inter_empty (x : ℕ) (l : List (Finset ℕ))
    (hdisj : l.Pairwise (fun s t => s ∩ t = ∅)) :
    l.countP (fun s => decide (x ∈ s)) = if x ∈ unionAll l then 1 else 0 := by
  induction l with
  | nil => simp [unionAll]
  | cons s l ih =>
    obtain ⟨hhead, htail⟩ := List.pairwise_cons.1 hdisj
    rw [List.countP_cons, ih htail, unionAll_cons]
    by_cases hx : x ∈ s
    · have hnot : x ∉ unionAll l := by
        intro hmem
        obtain ⟨t, ht, hxt⟩ := mem_unionAll.1 hmem
        have hin : x ∈ s ∩ t := Finset.mem_inter.2 ⟨hx, hxt⟩
        simp [hhead t ht] at hin
      simp [hx, hnot]
    · simp [hx, Finset.mem_union]

lemma countP_computeRawSets (n x : ℕ) (userSets : List (Finset ℕ))
    (hdisj : userSets.Pairwise (fun s t => s ∩ t = ∅))
    (hx : x ∈ Finset.range n) :
    (computeRawSets n userSets).countP (fun s => decide (x ∈ s)) = 1 := by
  simp only [computeRawSets]
  by_cases hmem : x ∈ unionAll userSets
  · have h1 : userSets.countP (fun s => decide (x ∈ s)) = 1 := by
      rw [countP_of_pairwise_inter_empty x userSets hdisj]; simp [hmem]
    split
    · have hnot : x ∉ Finset.range n \ unionAll userSets := by simp [hmem]
      rw [List.countP_append, h1, List.countP_cons]
      simp [hnot]
    · exact h1
  · have h0 : userSets.countP (fun s => decide (x ∈ s)) = 0 := by
      rw [countP_of_pairwise_inter_empty x userSets hdisj]; simp [hmem]
    have hrest : x ∈ Finset.range n \ unionAll userSets :=
      Finset.mem_sdiff.2 ⟨hx, hmem⟩
    have hpos : 0 < (Finset.range n \ unionAll userSets).card :=
      Finset.card_pos.2 ⟨x, hrest⟩
    rw [if_pos hpos, List.countP_append, h0, List.countP_cons]
    simp [hrest]

lemma region_trichotomy {n x : ℕ} {A B : Finset ℕ} (hAB : A ∩ B = ∅)
    (hx : x ∈ Finset.range n) :
    (x ∈ A ∧ x ∉ setIof n A B ∧ x ∉ B) ∨
    (x ∉ A ∧ x ∈ setIof n A B ∧ x ∉ B) ∨
    (x ∉ A ∧ x ∉ setIof n A B ∧ x ∈ B) := by
  by_cases hA : x ∈ A
  · have hB : x ∉ B := by
      intro hB
      have hin : x ∈ A ∩ B := Finset.mem_inter.2 ⟨hA, hB⟩
      simp [hAB] at hin
    have hI : x ∉ setIof n A B := by simp [setIof, hA]
    exact Or.inl ⟨hA, hI, hB⟩
  · by_cases hB : x ∈ B
    · have hI : x ∉ setIof n A B := by simp [setIof, hB]
      exact Or.inr (Or.inr ⟨hA, hI, hB⟩)
    · have hI : x ∈ setIof n A B := by simp [setIof, hx, hA, hB]
      exact Or.inr (Or.inl ⟨hA, hI, hB⟩)

/-- C2: for every model with `A`, `B` disjoint subsets of the state range
and pairwise-disjoint user sets inside the range, every state of
`{0..n_states-1}` belongs to exactly one group of the returned
`tpt_sets` (the remainder mechanism covers unlisted states, also for an
empty user-set list), and every group stays inside the state range, so
the union of the groups is exactly `{0..n_states-1}`. -/
theorem coarse_sets_partition (n : ℕ) (A B : Finset ℕ)
    (userSets : List (Finset ℕ))
    (hA : A ⊆ Finset.range n) (hB : B ⊆ Finset.range n)
    (hAB : A ∩ B = ∅)
    (hus : ∀ s ∈ userSets, s ⊆ Finset.range n)
    (hdisj : userSets.Pairwise (fun s t => s ∩ t = ∅)) :
    (∀ x ∈ Finset.range n,
      (_compute_coarse_sets n A B userSets).1.countP
        (fun g => decide (x ∈ g)) = 1) ∧
    (∀ g ∈ (_compute_coarse_sets n A B userSets).1, g ⊆ Finset.range n) := by
  constructor
  · intro x hx
    have hraw : (computeRawSets n userSets).countP (fun s => decide (x ∈ s)) = 1 :=
      countP_computeRawSets n x userSets hdisj hx
    simp only [_compute_coarse_sets]
    rw [List.countP_append, List.countP_append,
      countP_splitSets, countP_splitSets, countP_splitSets]
    rcases region_trichotomy (n := n) hAB hx with ⟨h1, h2, h3⟩ | ⟨h1, h2, h3⟩ | ⟨h1, h2, h3⟩
    · have eA : (computeRawSets n userSets).countP (fun s => decide (x ∈ s ∩ A))
          = (computeRawSets n userSets).countP (fun s => decide (x ∈ s)) :=
        List.countP_congr (fun s _ => by simp [Finset.mem_inter, h1])
      have eI : (computeRawSets n userSets).countP
          (fun s => decide (x ∈ s ∩ setIof n A B)) = 0 :=
        List.countP_eq_zero.2 (fun s _ => by simp [Finset.mem_inter, h2])
      have eB : (computeRawSets n userSets).countP (fun s => decide (x ∈ s ∩ B)) = 0 :=
        List.countP_eq_zero.2 (fun s _ => by simp [Finset.mem_inter, h3])
      rw [eA, eI, eB, hraw]
    · have eA : (computeRawSets n userSets).countP (fun s => decide (x ∈ s ∩ A)) = 0 :=
        List.countP_eq_zero.2 (fun s _ => by simp [Finset.mem_inter, h1])
      have eI : (computeRawSets n userSets).countP
          (fun s => decide (x ∈ s ∩ setIof n A B))
          = (computeRawSets n userSets).countP (fun s => decide (x ∈ s)) :=
        List.countP_congr (fun s _ => by simp [Finset.mem_inter, h2])
      have eB : (computeRawSets n userSets).countP (fun s => decide (x ∈ s ∩ B)) = 0 :=
        List.countP_eq_zero.2 (fun s _ => by simp [Finset.mem_inter, h3])
      rw [eA, eI, eB, hraw]
    · have eA : (computeRawSets n userSets).countP (fun s => decide (x ∈ s ∩ A)) = 0 :=
        List.countP_eq_zero.2 (fun s _ => by simp [Finset.mem_inter, h1])
      have eI : (computeRawSets n userSets).countP
          (fun s => decide (x ∈ s ∩ setIof n A B)) = 0 :=
        List.countP_eq_zero.2 (fun s _ => by simp [Finset.mem_inter, h2])
      have eB : (computeRawSets n userSets).countP (fun s => decide (x ∈ s ∩ B))
          = (computeRawSets n userSets).countP (fun s => decide (x ∈ s)) :=
        List.countP_congr (fun s _ => by simp [Finset.mem_inter, h3])
      rw [eA, eI, eB, hraw]
  · intro g hg
    simp only [_compute_coarse_sets, List.mem_append] at hg
    rcases hg with (hg | hg) | hg
    · obtain ⟨s, _, _, rfl⟩ := mem_splitSets.1 hg
      exact fun x hxg => hA (Finset.mem_inter.1 hxg).2
    · obtain ⟨s, _, _, rfl⟩ := mem_splitSets.1 hg
      exact fun x hxg =>
        setIof_subset_range n A B (Finset.mem_inter.1 hxg).2
    · obtain ⟨s, _, _, rfl⟩ := mem_splitSets.1 hg
      exact fun x hxg => hB (Finset.mem_inter.1 hxg).2

/-- Witness for C2 at `n = 3`, `A = {0}`, `B = {2}` with an empty
user-set list (the remainder mechanism alone covers all states). -/
theorem coarse_sets_partition_witness :
    (∀ x ∈ Finset.range 3,
      (_compute_coarse_sets 3 {0} {2} ([] : List (Finset ℕ))).1.countP
        (fun g => decide (x ∈ g)) = 1) ∧
    (∀ g ∈ (_compute_coarse_sets 3 {0} {2} ([] : List (Finset ℕ))).1,
      g ⊆ Finset.range 3) :=
  coarse_sets_partition 3 {0} {2} []
    (by decide) (by decide) (by decide) (by decide) (by decide)

lemma inter_eq_empty_of_subset_left {s R S : Finset ℕ} (hsub : s ⊆ R)
    (hRS : R ∩ S = ∅) : s ∩ S = ∅ := by
  ext x
  simp only [Finset.mem_inter, Finset.not_mem_empty, iff_false, not_and]
  intro hxs hxS
  have hin : x ∈ R ∩ S := Finset.mem_inter.2 ⟨hsub hxs, hxS⟩
  simp [hRS] at hin

lemma range_drop (m n : ℕ) : (List.range n).drop m = List.range' m (n - m) := by
  rcases le_or_lt m n with h | h
  · have hsplit : List.range' 0 m 1 ++ List.range' m (n - m) 1
        = List.range' 0 n 1 := by
      have := List.range'_append 0 m (n - m) 1
      simpa [Nat.add_sub_cancel' h, Nat.add_comm] using this
    have hd := List.drop_left (List.range' 0 m 1) (List.range' m (n - m) 1)
    rw [List.length_range'] at hd
    rw [List.range_eq_range', ← hsplit, hd]
  · have h0 : n - m = 0 := Nat.sub_eq_zero_of_le h.le
    rw [h0, List.range', List.drop_eq_nil_of_le (by simpa using h.le)]

/-- C3: a user set entirely inside one region yields exactly one output
group (the set itself); in general the splitting loop turns one raw set
into one group per region it intersects (the non-empty among its
intersections with `A`, `I`, `B`), so at most three; concretely,
`_compute_coarse_sets` with `A = {0}`, `B = {2}` on 3 states and
`user_sets = [{0,1}, {2}]` yields the three groups `{0}`, `{1}`, `{2}`. -/
theorem coarse_sets_split_per_set (n : ℕ) (A B s : Finset ℕ)
    (hAB : A ∩ B = ∅) :
    (splitSet A s ++ splitSet (setIof n A B) s ++ splitSet B s
      = ([A, setIof n A B, B].filter
          (fun R => decide (0 < (s ∩ R).card))).map (fun R => s ∩ R)) ∧
    (splitSet A s ++ splitSet (setIof n A B) s ++ splitSet B s).length ≤ 3 ∧
    (∀ R ∈ [A, setIof n A B, B], s.Nonempty → s ⊆ R →
      splitSet A s ++ splitSet (setIof n A B) s ++ splitSet B s = [s]) ∧
    (_compute_coarse_sets 3 {0} {2} [{0,1}, {2}]).1 = [{0}, {1}, {2}] := by
  have hIA : setIof n A B ∩ A = ∅ := setIof_inter_left n A B
  have hIB : setIof n A B ∩ B = ∅ := setIof_inter_right n A B
  have hAI : A ∩ setIof n A B = ∅ := by rw [Finset.inter_comm]; exact hIA
  have hBI : B ∩ setIof n A B = ∅ := by rw [Finset.inter_comm]; exact hIB
  have hBA : B ∩ A = ∅ := by rw [Finset.inter_comm]; exact hAB
  refine ⟨?_, ?_, ?_, by decide⟩
  · by_cases h1 : (s ∩ A).Nonempty <;>
      by_cases h2 : (s ∩ setIof n A B).Nonempty <;>
      by_cases h3 : (s ∩ B).Nonempty <;>
      simp [splitSet, Finset.card_pos, h1, h2, h3]
  · by_cases h1 : (s ∩ A).Nonempty <;>
      by_cases h2 : (s ∩ setIof n A B).Nonempty <;>
      by_cases h3 : (s ∩ B).Nonempty <;>
      simp [splitSet, Finset.card_pos, h1, h2, h3]
  · intro R hR hne hsub
    have hpos : 0 < s.card := Finset.card_pos.2 hne
    simp only [List.mem_cons, List.not_mem_nil, or_false] at hR
    rcases hR with rfl | rfl | rfl
    · have e1 : s ∩ R = s := Finset.inter_eq_left.2 hsub
      have e2 : s ∩ setIof n R B = ∅ := inter_eq_empty_of_subset_left hsub hAI
      have e3 : s ∩ B = ∅ := inter_eq_empty_of_subset_left hsub hAB
      simp [splitSet, e1, e2, e3, hpos]
    · have e1 : s ∩ A = ∅ := inter_eq_empty_of_subset_left hsub hIA
      have e2 : s ∩ setIof n A B = s := Finset.inter_eq_left.2 hsub
      have e3 : s ∩ B = ∅ := inter_eq_empty_of_subset_left hsub hIB
      simp [splitSet, e1, e2, e3, hpos]
    · have e1 : s ∩ A = ∅ := inter_eq_empty_of_subset_left hsub hBA
      have e2 : s ∩ setIof n A R = ∅ := inter_eq_empty_of_subset_left hsub hBI
      have e3 : s ∩ R = s := Finset.inter_eq_left.2 hsub
      simp [splitSet, e1, e2, e3, hpos]

/-- Witness for C3 at `n = 3`, `A = {0}`, `B = {2}`, `s = {0, 1}`. -/
theorem coarse_sets_split_per_set_witness :
    (splitSet {0} {0,1} ++ splitSet (setIof 3 {0} {2}) {0,1} ++ splitSet {2} {0,1}
      = ([{0}, setIof 3 {0} {2}, {2}].filter
          (fun R => decide (0 < (({0,1} : Finset ℕ) ∩ R).card))).map
            (fun R => ({0,1} : Finset ℕ) ∩ R)) ∧
    (splitSet {0} {0,1} ++ splitSet (setIof 3 {0} {2}) {0,1}
      ++ splitSet {2} {0,1}).length ≤ 3 ∧
    (∀ R ∈ [{0}, setIof 3 {0} {2}, {2}], ({0,1} : Finset ℕ).Nonempty →
      ({0,1} : Finset ℕ) ⊆ R →
      splitSet {0} {0,1} ++ splitSet (setIof 3 {0} {2}) {0,1}
        ++ splitSet {2} {0,1} = [{0,1}]) ∧
    (_compute_coarse_sets 3 {0} {2} [{0,1}, {2}]).1 = [{0}, {1}, {2}] :=
  coarse_sets_split_per_set 3 {0} {2} {0,1} (by decide)

/-- C4: the returned `tpt_sets` is the concatenation of the A-region
groups, the I-region groups and the B-region groups of the raw sets (in
processing order), `Aindexes` is the contiguous index prefix of length
`len(Asets)` and `Bindexes` the contiguous index suffix starting at
`len(Asets) + len(Isets)`. -/
theorem coarse_sets_order_and_indexes (n : ℕ) (A B : Finset ℕ)
    (userSets : List (Finset ℕ)) :
    (_compute_coarse_sets n A B userSets).1
      = splitSets A (computeRawSets n userSets)
        ++ splitSets (setIof n A B) (computeRawSets n userSets)
        ++ splitSets B (computeRawSets n userSets) ∧
    (_compute_coarse_sets n A B userSets).2.1
      = (List.range (_compute_coarse_sets n A B userSets).1.length).take
          (splitSets A (computeRawSets n userSets)).length ∧
    (_compute_coarse_sets n A B userSets).2.2
      = (List.range (_compute_coarse_sets n A B userSets).1.length).drop
          ((splitSets A (computeRawSets n userSets)).length
            + (splitSets (setIof n A B) (computeRawSets n userSets)).length) := by
  refine ⟨rfl, ?_, ?_⟩
  · simp only [_compute_coarse_sets, pyRange, List.take_range, Nat.sub_zero]
    rw [List.range_eq_range']
    congr 1
    simp [List.length_append]
  · simp only [_compute_coarse_sets, pyRange]
    rw [range_drop]

/-- C6: for every model with a non-zero stored rate scalar (and a
non-zero lag time), `rate` is the stored scalar divided by
`physical_time`, `mfpt` is `physical_time` divided by the stored scalar,
`mfpt * rate = 1`, `mfpt = 1 / rate`, and rescaling `physical_time` by a
factor `c` multiplies `mfpt` by `c` and divides `rate` by `c`. -/
theorem mfpt_rate_reciprocal (m : ReactiveFlux)
    (hk : m._kAB ≠ 0) (hdt : m._dt_model ≠ 0) :
    m.rate = m._kAB / m._dt_model ∧
    m.mfpt = m._dt_model / m._kAB ∧
    m.mfpt * m.rate = 1 ∧
    m.mfpt = 1 / m.rate ∧
    (∀ c : ℚ, c ≠ 0 →
      (m.set_physical_time (c * m._dt_model)).mfpt = c * m.mfpt ∧
      (m.set_physical_time (c * m._dt_model)).rate = m.rate / c) := by
  refine ⟨rfl, rfl, ?_, ?_, ?_⟩
  · simp only [ReactiveFlux.mfpt, ReactiveFlux.rate]
    field_simp
  · simp only [ReactiveFlux.mfpt, ReactiveFlux.rate]
    rw [one_div_div]
  · intro c hc
    constructor
    · simp only [ReactiveFlux.mfpt, ReactiveFlux.set_physical_time]
      rw [mul_div_assoc]
    · simp only [ReactiveFlux.rate, ReactiveFlux.set_physical_time]
      rw [div_div]
      ring_nf

/-- A concrete sample model with `_kAB = 5` and `_dt_model = 2`. -/
def sampleModel : ReactiveFlux :=
  ⟨[0], [2], ⟨3, fun _ _ => 0⟩, none, none, none, none, 2, 0, 5⟩

/-- Witness for C6 at `sampleModel`. -/
theorem mfpt_rate_reciprocal_witness :
    sampleModel._kAB ≠ 0 ∧ sampleModel._dt_model ≠ 0 ∧
    (sampleModel.rate = sampleModel._kAB / sampleModel._dt_model ∧
    sampleModel.mfpt = sampleModel._dt_model / sampleModel._kAB ∧
    sampleModel.mfpt * sampleModel.rate = 1 ∧
    sampleModel.mfpt = 1 / sampleModel.rate ∧
    (∀ c : ℚ, c ≠ 0 →
      (sampleModel.set_physical_time
        (c * sampleModel._dt_model)).mfpt = c * sampleModel.mfpt ∧
      (sampleModel.set_physical_time
        (c * sampleModel._dt_model)).rate = sampleModel.rate / c)) :=
  ⟨by simp [sampleModel], by simp [sampleModel],
    mfpt_rate_reciprocal sampleModel
      (by simp [sampleModel]) (by simp [sampleModel])⟩

/-- C9: each of the `A`, `B` and `stationary_distribution` setters
replaces exactly its own stored field: all other stored fields, among
them the derived scalars `_totalflux` and `_kAB`, the flux matrices, the
committors and the lag time, are unchanged (nothing is recomputed). -/
theorem setters_frame (m : ReactiveFlux) (vA vB : List ℕ)
    (vmu : Option (ℕ → ℚ)) :
    ((m.setA vA)._A = vA ∧ (m.setA vA)._B = m._B ∧
      (m.setA vA)._flux = m._flux ∧ (m.setA vA)._mu = m._mu ∧
      (m.setA vA)._qminus = m._qminus ∧ (m.setA vA)._qplus = m._qplus ∧
      (m.setA vA)._gross_flux = m._gross_flux ∧
      (m.setA vA)._dt_model = m._dt_model ∧
      (m.setA vA)._totalflux = m._totalflux ∧ (m.setA vA)._kAB = m._kAB) ∧
    ((m.setB vB)._B = vB ∧ (m.setB vB)._A = m._A ∧
      (m.setB vB)._flux = m._flux ∧ (m.setB vB)._mu = m._mu ∧
      (m.setB vB)._qminus = m._qminus ∧ (m.setB vB)._qplus = m._qplus ∧
      (m.setB vB)._gross_flux = m._gross_flux ∧
      (m.setB vB)._dt_model = m._dt_model ∧
      (m.setB vB)._totalflux = m._totalflux ∧ (m.setB vB)._kAB = m._kAB) ∧
    ((m.set_stationary_distribution vmu)._mu = vmu ∧
      (m.set_stationary_distribution vmu)._A = m._A ∧
      (m.set_stationary_distribution vmu)._B = m._B ∧
      (m.set_stationary_distribution vmu)._flux = m._flux ∧
      (m.set_stationary_distribution vmu)._qminus = m._qminus ∧
      (m.set_stationary_distribution vmu)._qplus = m._qplus ∧
      (m.set_stationary_distribution vmu)._gross_flux = m._gross_flux ∧
      (m.set_stationary_distribution vmu)._dt_model = m._dt_model ∧
      (m.set_stationary_distribution vmu)._totalflux = m._totalflux ∧
      (m.set_stationary_distribution vmu)._kAB = m._kAB) :=
  ⟨⟨rfl, rfl, rfl, rfl, rfl, rfl, rfl, rfl, rfl, rfl⟩,
   ⟨rfl, rfl, rfl, rfl, rfl, rfl, rfl, rfl, rfl, rfl⟩,
   ⟨rfl, rfl, rfl, rfl, rfl, rfl, rfl, rfl, rfl, rfl⟩⟩

/-- Number of times the ordered edge `(i, j)` is traversed by the path
`p`, i.e. of positions `t` with `p[t] = i` and `p[t+1] = j`. -/
def countEdges : List ℕ → ℕ → ℕ → ℕ
  | a :: b :: rest, i, j =>
      (if i = a ∧ j = b then 1 else 0) + countEdges (b :: rest) i j
  | _, _, _ => 0

lemma addPath_entry (f : ℚ) (p : List ℕ) (F : ℕ → ℕ → ℚ) (i j : ℕ) :
    addPath f p F i j = F i j + f * (countEdges p i j : ℚ) := by
  induction p generalizing F with
  | nil => simp [addPath, countEdges]
  | cons a tail ih =>
    cases tail with
    | nil => simp [addPath, countEdges]
    | cons b rest =>
      rw [addPath, ih, countEdges]
      by_cases h : i = a ∧ j = b
      · simp [bump, h]
        ring
      · simp [bump, h]

lemma foldl_addPath_entry (l : List (List ℕ × ℚ)) (F0 : ℕ → ℕ → ℚ)
    (i j : ℕ) :
    (l.foldl (fun F pf => addPath pf.2 pf.1 F) F0) i j
      = F0 i j + (l.map (fun pf => pf.2 * (countEdges pf.1 i j : ℚ))).sum := by
  induction l generalizing F0 with
  | nil => simp
  | cons pf l ih =>
    rw [List.foldl_cons, ih, List.map_cons, List.sum_cons, addPath_entry]
    ring

/-- C7: `major_flux` applied to the paths and path fluxes returned by the
external `pathways` decomposition is the matrix built from zero by adding,
for each path with flux `f`, the value `f` to every consecutive edge of
the path: each entry `(i, j)` is the sum over the paths of the path flux
times the number of traversals of edge `(i, j)`, fluxes of several paths
accumulate additively on a shared edge, the matrix dimension is
`n_states`, and entries on no returned path are zero. -/
theorem major_flux_accumulates (m : ReactiveFlux) (paths : List (List ℕ))
    (pathfluxes : List ℚ) (h : paths.length = pathfluxes.length)
    (i j : ℕ) :
    (m.major_flux paths pathfluxes).dim = m.n_states ∧
    (m.major_flux paths pathfluxes).entry i j
      = ((paths.zip pathfluxes).map
          (fun pf => pf.2 * (countEdges pf.1 i j : ℚ))).sum ∧
    ((∀ pf ∈ paths.zip pathfluxes, countEdges pf.1 i j = 0) →
      (m.major_flux paths pathfluxes).entry i j = 0) := by
  refine ⟨rfl, ?_, ?_⟩
  · simp only [ReactiveFlux.major_flux, _pathways_to_flux]
    rw [foldl_addPath_entry]
    simp
  · intro hz
    simp only [ReactiveFlux.major_flux, _pathways_to_flux]
    rw [foldl_addPath_entry]
    simp only [zero_add]
    refine List.sum_eq_zero ?_
    intro q hq
    obtain ⟨pf, hpf, rfl⟩ := List.mem_map.1 hq
    rw [hz pf hpf]
    simp

/-- Witness for C7: one path `[0, 1, 2]` with flux `1/2` on a 3-state
model, at the edge `(0, 1)`. -/
theorem major_flux_accumulates_witness :
    ((sampleModel.major_flux [[0, 1, 2]] [1/2]).dim
        = sampleModel.n_states ∧
    (sampleModel.major_flux [[0, 1, 2]] [1/2]).entry 0 1
      = (([[0, 1, 2]].zip [(1 : ℚ)/2]).map
          (fun pf => pf.2 * (countEdges pf.1 0 1 : ℚ))).sum ∧
    ((∀ pf ∈ [[0, 1, 2]].zip [(1 : ℚ)/2], countEdges pf.1 0 1 = 0) →
      (sampleModel.major_flux [[0, 1, 2]] [1/2]).entry 0 1 = 0)) :=
  major_flux_accumulates sampleModel [[0, 1, 2]] [1/2] (by decide) 0 1

lemma groupCommittor_eq_div (mu q : ℕ → ℚ) (Idx : Finset ℕ) :
    groupCommittor mu q Idx
      = (Idx.sum fun x => mu x * q x) / groupStat mu Idx := by
  unfold groupCommittor
  rw [Finset.sum_div]
  exact Finset.sum_congr rfl (fun x _ => div_mul_eq_mul_div _ _ _)

lemma coarse_grain_eq (m : ReactiveFlux) (us : List (Finset ℕ))
    (gf : Mat) (muF qpF qmF : ℕ → ℚ)
    (hgf : m._gross_flux = some gf) (hmu : m._mu = some muF)
    (hqp : m._qplus = some qpF) (hqm : m._qminus = some qmF) :
    m.coarse_grain us = some
      ((_compute_coarse_sets m.n_states m._A.toFinset m._B.toFinset us).1,
        mkReactiveFlux
          (_compute_coarse_sets m.n_states m._A.toFinset m._B.toFinset us).2.1
          (_compute_coarse_sets m.n_states m._A.toFinset m._B.toFinset us).2.2
          (to_netflux_prim (coarsegrain_prim gf
            (_compute_coarse_sets m.n_states m._A.toFinset m._B.toFinset us).1))
          (some fun i => groupStat muF
            ((_compute_coarse_sets m.n_states m._A.toFinset m._B.toFinset
              us).1.getD i ∅))
          (some fun i => groupCommittor muF qmF
            ((_compute_coarse_sets m.n_states m._A.toFinset m._B.toFinset
              us).1.getD i ∅))
          (some fun i => groupCommittor muF qpF
            ((_compute_coarse_sets m.n_states m._A.toFinset m._B.toFinset
              us).1.getD i ∅))
          (some (coarsegrain_prim gf
            (_compute_coarse_sets m.n_states m._A.toFinset m._B.toFinset us).1))
          m._dt_model) := by
  rw [ReactiveFlux.coarse_grain, hgf, hmu, hqp, hqm]
  rfl

/-- C5: when the model stores `mu`, `qplus` and `qminus`, `coarse_grain`
gives each coarse group whose aggregate stationary probability is
positive a coarse stationary probability equal to the sum of `mu` over
its member states, and coarse forward/backward committors equal to the
`mu`-weighted averages of `qplus`/`qminus` over the member states (the
weight of a member being its `mu` divided by the group's total `mu`). -/
theorem coarse_grain_aggregates (m : ReactiveFlux) (us : List (Finset ℕ))
    (gf : Mat) (muF qpF qmF : ℕ → ℚ)
    (hgf : m._gross_flux = some gf) (hmu : m._mu = some muF)
    (hqp : m._qplus = some qpF) (hqm : m._qminus = some qmF)
    (i : ℕ) (Idx : Finset ℕ)
    (hIdx : Idx = (_compute_coarse_sets m.n_states m._A.toFinset
      m._B.toFinset us).1.getD i ∅)
    (hpos : 0 < groupStat muF Idx) :
    ∃ tpt res, m.coarse_grain us = some (tpt, res) ∧
      Idx = tpt.getD i ∅ ∧
      ∃ pc fc bc,
        res.stationary_distribution = some pc ∧
        res.forward_committor = some fc ∧
        res.backward_committor = some bc ∧
        pc i = Idx.sum (fun x => muF x) ∧
        fc i = Idx.sum (fun x => muF x / Idx.sum (fun y => muF y) * qpF x) ∧
        fc i = (Idx.sum fun x => muF x * qpF x) / Idx.sum (fun y => muF y) ∧
        bc i = Idx.sum (fun x => muF x / Idx.sum (fun y => muF y) * qmF x) ∧
        bc i = (Idx.sum fun x => muF x * qmF x) / Idx.sum (fun y => muF y) := by
  subst hIdx
  refine ⟨_, _, coarse_grain_eq m us gf muF qpF qmF hgf hmu hqp hqm, rfl,
    _, _, _, rfl, rfl, rfl, rfl, rfl, ?_, rfl, ?_⟩
  · exact groupCommittor_eq_div muF qpF _
  · exact groupCommittor_eq_div muF qmF _

/-- A concrete fully-populated sample model on 2 states. -/
def sampleModelFull : ReactiveFlux :=
  ⟨[0], [1], ⟨2, fun _ _ => 0⟩, some (fun _ => 1), some (fun _ => 1),
    some (fun _ => 1), some ⟨2, fun _ _ => 0⟩, 1, 0, 0⟩

/-- Witness for C5 at `sampleModelFull`, `user_sets = []`, group `0`
(which is `{0}`). -/
theorem coarse_grain_aggregates_witness :
    ∃ tpt res, sampleModelFull.coarse_grain [] = some (tpt, res) ∧
      ({0} : Finset ℕ) = tpt.getD 0 ∅ ∧
      ∃ pc fc bc,
        res.stationary_distribution = some pc ∧
        res.forward_committor = some fc ∧
        res.backward_committor = some bc ∧
        pc 0 = ({0} : Finset ℕ).sum (fun _ => (1 : ℚ)) ∧
        fc 0 = ({0} : Finset ℕ).sum
          (fun _ => (1 : ℚ) / ({0} : Finset ℕ).sum (fun _ => (1 : ℚ)) * 1) ∧
        fc 0 = (({0} : Finset ℕ).sum fun _ => (1 : ℚ) * 1)
          / ({0} : Finset ℕ).sum (fun _ => (1 : ℚ)) ∧
        bc 0 = ({0} : Finset ℕ).sum
          (fun _ => (1 : ℚ) / ({0} : Finset ℕ).sum (fun _ => (1 : ℚ)) * 1) ∧
        bc 0 = (({0} : Finset ℕ).sum fun _ => (1 : ℚ) * 1)
          / ({0} : Finset ℕ).sum (fun _ => (1 : ℚ)) :=
  coarse_grain_aggregates sampleModelFull [] ⟨2, fun _ _ => 0⟩
    (fun _ => 1) (fun _ => 1) (fun _ => 1) rfl rfl rfl rfl 0 {0}
    (by decide) (by simp [groupStat])

/-- C10: a model missing any of `mu`, `qminus`, `qplus` or `gross_flux`
cannot be coarse-grained (`coarse_grain` dereferences all four stored
fields, so it fails when any is `None`), and the `gross_flux` accessor
fails when `gross_flux` was not supplied. -/
theorem coarse_grain_requires_optional_fields (m : ReactiveFlux)
    (us : List (Finset ℕ))
    (h : m._mu = none ∨ m._qminus = none ∨ m._qplus = none ∨
      m._gross_flux = none) :
    m.coarse_grain us = none ∧
    (m._gross_flux = none → m.gross_flux = none) := by
  constructor
  · rcases h with h | h | h | h
    · cases hg : m._gross_flux <;>
        simp [ReactiveFlux.coarse_grain, hg, h]
    · cases hg : m._gross_flux <;> cases hm : m._mu <;>
        cases hp : m._qplus <;>
        simp [ReactiveFlux.coarse_grain, hg, hm, hp, h]
    · cases hg : m._gross_flux <;> cases hm : m._mu <;>
        simp [ReactiveFlux.coarse_grain, hg, hm, h]
    · simp [ReactiveFlux.coarse_grain, h]
  · intro hg
    simp [ReactiveFlux.gross_flux, hg]

/-- Witness for C10 at `sampleModel` (whose `_mu` is `None`). -/
theorem coarse_grain_requires_optional_fields_witness :
    sampleModel.coarse_grain [] = none ∧
    (sampleModel._gross_flux = none → sampleModel.gross_flux = none) :=
  coarse_grain_requires_optional_fields sampleModel [] (Or.inl rfl)

end SkTime
